import Mathlib

/-!
Verification development for the dagrs DAG engine.

The engine layer (Engine, DagError, run_dag, run_sequential, append_dag,
get_dag_result) is translated from src/src/engine/mod.rs; the YAML error
conversions are translated from src/src/yaml/mod.rs.  The Dag / graph /
executor layer (`engine/dag.rs`, `engine/graph.rs` and the task module) is
not present under src/, so those parts are modelled from the specification,
as indicated on each definition.

Rust HashMaps are embedded as association lists (`hmGet`, `hmInsert`,
`hmContains`); the tokio runtime field of `Engine` carries no observable
state and is omitted.  The opaque dynamically-typed payload moved between
tasks is a type parameter `V`.
-/

namespace DagrsModel

/-- Errors raised by building and running dag jobs
(src/src/engine/mod.rs, enum `DagError`). -/
inductive DagError where
  | parserError (msg : String)
  | relyTaskIllegal (name : String)
  | loopGraph
  | emptyJob
  | taskError (name : String)
deriving DecidableEq, Repr

/-! ### Association-list embedding of `std::collections::HashMap` -/

/-- Lookup in a HashMap embedded as an association list
(`HashMap::get`). -/
def hmGet {K A : Type} [DecidableEq K] : List (K × A) → K → Option A
  | [], _ => none
  | q :: rest, k => if q.fst = k then some q.snd else hmGet rest k

/-- Key-membership test (`HashMap::contains_key`). -/
def hmContains {K A : Type} [DecidableEq K] (m : List (K × A)) (k : K) : Bool :=
  (hmGet m k).isSome

/-- Insertion (`HashMap::insert`): replaces the binding of an existing
key, otherwise appends a fresh binding. -/
def hmInsert {K A : Type} [DecidableEq K] : List (K × A) → K → A → List (K × A)
  | [], k, a => [(k, a)]
  | q :: rest, k, a => if q.fst = k then (k, a) :: rest else q :: hmInsert rest k a

/-- The keys of an embedded HashMap. -/
def keysOf {K A : Type} (m : List (K × A)) : List K := m.map Prod.fst

/-! ### Value envelope, environment, task (modelled from the spec) -/

/-- Modelled from the spec: the Environment of a DAG (the task module and
`EnvVar` are not under src/); a mapping from string keys to values. -/
def EnvVar (V : Type) : Type := List (String × V)

/-- Modelled from the spec: the value envelope (`Output` of the task
module, not under src/): a single value, a sequence of values, the empty
marker, or a task-level error signal. -/
inductive Output (V : Type) where
  | newOut (v : V)
  | seqOut (vs : List V)
  | emptyOut
  | errOut (msg : String)

/-- Modelled from the spec: a Task (the task module is not under src/):
an id, a human name, an ordered predecessor-id list, and an action taking
the input bundle and the environment to an output envelope. -/
structure Task (V : Type) where
  id : Nat
  name : String
  predecessors : List Nat
  action : List (Output V) → EnvVar V → Output V

/-- Modelled from the spec: a Dag (`engine/dag.rs` is not under src/):
the task set, the environment, the execution sequence computed by `init`,
the per-task output cache and the final-result handle. -/
structure Dag (V : Type) where
  tasks : List (Task V)
  env : EnvVar V
  executionSequence : List Nat
  execResults : List (Nat × Output V)
  finalResult : Option (Output V)

/-- Modelled from the spec: `Dag::with_tasks` builds an uninitialized DAG
from a task list. -/
def dagWithTasks {V : Type} (tasks : List (Task V)) : Dag V :=
  { tasks := tasks, env := [], executionSequence := [], execResults := [], finalResult := none }

/-! ### Graph validation (modelled from the spec, section 4.4) -/

/-- Does some task of `remaining` still carry id `p`? -/
def stillHas {V : Type} (remaining : List (Task V)) (p : Nat) : Bool :=
  remaining.any (fun t => t.id == p)

/-- Modelled from the spec: the in-degree of `t` with respect to the not
yet emitted tasks `remaining`: the number of its declared predecessors
whose tasks have not been emitted. -/
def indeg {V : Type} (remaining : List (Task V)) (t : Task V) : Nat :=
  (t.predecessors.filter (stillHas remaining)).length

/-- The not yet emitted tasks of in-degree zero. -/
def zeros {V : Type} (remaining : List (Task V)) : List (Task V) :=
  remaining.filter (fun t => indeg remaining t == 0)

/-- Pick the task of smallest id (the spec breaks ties by ascending
TaskId for determinism). -/
def pickMin {V : Type} : List (Task V) → Option (Task V)
  | [] => none
  | t :: rest =>
    match pickMin rest with
    | none => some t
    | some u => if t.id ≤ u.id then some t else some u

/-- Remove the task of id `i` from the working list. -/
def removeId {V : Type} (remaining : List (Task V)) (i : Nat) : List (Task V) :=
  remaining.filter (fun t => t.id != i)

/-- Modelled from the spec: Kahn emission loop — repeatedly emit a vertex
of in-degree zero (smallest id first) and remove it; if tasks remain when
no vertex has in-degree zero, the graph is cyclic and `none` is
returned. -/
def kahnAux {V : Type} : Nat → List (Task V) → List Nat → Option (List Nat)
  | 0, remaining, acc => if remaining.isEmpty then some acc else none
  | fuel + 1, remaining, acc =>
    if remaining.isEmpty then some acc
    else
      match pickMin (zeros remaining) with
      | none => none
      | some t => kahnAux fuel (removeId remaining t.id) (acc.concat t.id)

/-- Modelled from the spec: cycle detection / topological sort (step 3 of
graph initialization, `engine/graph.rs` not being under src/). -/
def kahn {V : Type} (tasks : List (Task V)) : Option (List Nat) :=
  kahnAux tasks.length tasks []

/-- Does task `t` declare a predecessor id that belongs to no task of the
graph? -/
def predMissing {V : Type} (tasks : List (Task V)) (t : Task V) : Bool :=
  t.predecessors.any (fun p => !(tasks.any (fun t2 => t2.id == p)))

/-- Modelled from the spec: the closure check — the name of the first task
whose declared predecessors are not all present, if any. -/
def findIllegal {V : Type} (tasks : List (Task V)) : Option String :=
  (tasks.find? (predMissing tasks)).map Task.name

/-- Modelled from the spec: `Dag::init` (`engine/dag.rs` not under src/):
emptiness check, then closure check, then cycle detection / topological
sort, storing the emitted order as the execution sequence. -/
def dagInit {V : Type} (d : Dag V) : Except DagError (Dag V) :=
  if d.tasks.isEmpty then Except.error DagError.emptyJob
  else
    match findIllegal d.tasks with
    | some nm => Except.error (DagError.relyTaskIllegal nm)
    | none =>
      match kahn d.tasks with
      | none => Except.error DagError.loopGraph
      | some s => Except.ok { d with executionSequence := s }

/-! ### Running a DAG (modelled from the spec, sections 4.5 and 4.6) -/

/-- The cached output of task `p`, the empty envelope when absent. -/
def lookupOut {V : Type} (outs : List (Nat × Output V)) (p : Nat) : Output V :=
  match outs.find? (fun q => q.fst == p) with
  | some q => q.snd
  | none => Output.emptyOut

/-- Modelled from the spec: the input bundle of a task — one envelope per
declared predecessor, in declaration order. -/
def bundleOf {V : Type} (outs : List (Nat × Output V)) (t : Task V) : List (Output V) :=
  t.predecessors.map (lookupOut outs)

/-- Modelled from the spec: reference execution of the tasks of an
initialized DAG in execution-sequence order, stopping at the first error
envelope with `TaskError(name)`; returns the result, the output cache and
the list of executed task ids (most recent first). -/
def dagRunAux {V : Type} (tasks : List (Task V)) (env : EnvVar V) :
    List Nat → List (Nat × Output V) → List Nat →
    Except DagError Unit × List (Nat × Output V) × List Nat
  | [], outs, execed => (Except.ok (), outs, execed)
  | i :: rest, outs, execed =>
    match tasks.find? (fun t => t.id == i) with
    | none => dagRunAux tasks env rest outs execed
    | some t =>
      match t.action (bundleOf outs t) env with
      | Output.errOut _ => (Except.error (DagError.taskError t.name), outs, i :: execed)
      | out => dagRunAux tasks env rest ((i, out) :: outs) (i :: execed)

/-- Modelled from the spec: `Dag::run` (`engine/dag.rs` not under src/):
drive the initialized DAG to completion, caching outputs; on success the
final result is the output of the last task of the execution sequence.
Returns the updated DAG, the run result and the executed task ids. -/
def dagRun {V : Type} (d : Dag V) : Dag V × Except DagError Unit × List Nat :=
  let r := dagRunAux d.tasks d.env d.executionSequence [] []
  match r.1 with
  | Except.ok _ =>
    let fin :=
      match d.executionSequence.getLast? with
      | some i => (r.2.1.find? (fun q => q.fst == i)).map (fun q => q.snd)
      | none => none
    ({ d with execResults := r.2.1, finalResult := fin }, Except.ok (), r.2.2)
  | Except.error err => ({ d with execResults := r.2.1 }, Except.error err, r.2.2)

/-- Modelled from the spec: `Dag::start` — initialize, then run; on an
initialization error no task is executed. -/
def dagStart {V : Type} (d : Dag V) : Except DagError Unit × List Nat :=
  match dagInit d with
  | Except.error err => (Except.error err, [])
  | Except.ok d2 =>
    let r := dagRun d2
    (r.2.1, r.2.2)

/-- Modelled from the spec: `Dag::get_result` — typed read of the final
envelope of a previously executed DAG. -/
def dagGetResult {V : Type} (d : Dag V) : Option V :=
  match d.finalResult with
  | some (Output.newOut v) => some v
  | _ => none

/-! ### The Engine (translated from src/src/engine/mod.rs) -/

/-- The Engine (src/src/engine/mod.rs): a name-to-DAG registry and an
insertion-ordered sequence registry.  The tokio runtime field is omitted:
it carries no observable state. -/
structure Engine (V : Type) where
  dags : List (String × Dag V)
  sequence : List (Nat × String)

/-- Translation of `Engine::default()`: empty registries. -/
def engineDefault {V : Type} : Engine V := { dags := [], sequence := [] }

/-- Translation of `Engine::append_dag` (src/src/engine/mod.rs lines 53-66): if the name
is unbound, initialize the DAG; on success bind the name and assign
sequence number `sequence.len() + 1`; on failure only log.  The returned
Boolean records whether `init` was invoked on the DAG. -/
def appendDag {V : Type} (e : Engine V) (name : String) (dag : Dag V) : Engine V × Bool :=
  if hmContains e.dags name then (e, false)
  else
    match dagInit dag with
    | Except.ok d2 =>
      ({ dags := hmInsert e.dags name d2,
         sequence := hmInsert e.sequence (e.sequence.length + 1) name }, true)
    | Except.error _ => (e, true)

/-- Translation of `Engine::run_dag` (src/src/engine/mod.rs lines 69-77): an unbound name
yields `EmptyJob`; otherwise the bound DAG is run on the shared runtime
and its updated state is stored back. -/
def runDagM {V : Type} (e : Engine V) (name : String) : Engine V × Except DagError Unit :=
  match hmGet e.dags name with
  | none => (e, Except.error DagError.emptyJob)
  | some d =>
    let r := dagRun d
    ({ e with dags := hmInsert e.dags name r.1 }, r.2.1)

/-- The loop body of `Engine::run_sequential`: iterate indices `s`,
`s+1`, ... for `fuel` steps; the `unwrap` on the sequence lookup is
embedded as `none` (a panic) when the index is unbound. -/
def runSeqFrom {V : Type} : Engine V → Nat → Nat → Option (Engine V × Except DagError Unit)
  | e, _, 0 => some (e, Except.ok ())
  | e, s, fuel + 1 =>
    match hmGet e.sequence s with
    | none => none
    | some name =>
      let r := runDagM e name
      match r.2 with
      | Except.error err => some (r.1, Except.error err)
      | Except.ok _ => runSeqFrom r.1 (s + 1) fuel

/-- Translation of `Engine::run_sequential` (src/src/engine/mod.rs lines 81-87): run the
sequence numbers 1 up to `sequence.len()`, stopping at the first
failure. -/
def runSequential {V : Type} (e : Engine V) : Option (Engine V × Except DagError Unit) :=
  runSeqFrom e 1 e.sequence.length

/-- Specification-side reference behaviour for claim C1: call `run_dag`
on each given name in order, stopping at the first error. -/
def runDagsChain {V : Type} : Engine V → List String → Engine V × Except DagError Unit
  | e, [] => (e, Except.ok ())
  | e, name :: rest =>
    let r := runDagM e name
    match r.2 with
    | Except.error err => (r.1, Except.error err)
    | Except.ok _ => runDagsChain r.1 rest

/-- Translation of `Engine::get_dag_result` (src/src/engine/mod.rs lines 90-96): typed
read of a bound DAG's final result; `None` on an unbound name.  The
engine component of the pair embeds the `&self` receiver, which the
method cannot mutate. -/
def getDagResultM {V : Type} (e : Engine V) (name : String) : Option V × Engine V :=
  match hmGet e.dags name with
  | some d => (dagGetResult d, e)
  | none => (none, e)

/-! ### YAML error conversions (translated from src/src/yaml/mod.rs) -/

/-- Errors about task configuration items (src/src/yaml/mod.rs, enum
`YamlTaskError`). -/
inductive YamlTaskError where
  | startWordError
  | noNameAttr (msg : String)
  | notFoundPrecursor (msg : String)
  | noScriptAttr (msg : String)
deriving DecidableEq, Repr

/-- Errors about file information (src/src/yaml/mod.rs, enum
`FileContentError`); the wrapped `yaml_rust::ScanError` is embedded by
its display string. -/
inductive FileContentError where
  | illegalYamlContent (err : String)
  | empty (file : String)
deriving DecidableEq, Repr

/-- Configuration file not found (src/src/yaml/mod.rs, struct
`FileNotFound`); the wrapped `std::io::Error` is embedded by its display
string. -/
structure FileNotFound where
  err : String
deriving DecidableEq, Repr

/-- Translation of `impl From<YamlTaskError> for DagError` (src/src/yaml/mod.rs lines
87-103). -/
def yamlTaskErrorToDag : YamlTaskError → DagError
  | YamlTaskError.startWordError =>
    DagError.parserError "File content is not start with \x27dagrs\x27."
  | YamlTaskError.noNameAttr msg =>
    DagError.parserError ("Task has no name field. [" ++ msg ++ "]")
  | YamlTaskError.notFoundPrecursor msg =>
    DagError.parserError ("Task cannot find the specified predecessor. [" ++ msg ++ "]")
  | YamlTaskError.noScriptAttr msg =>
    DagError.parserError ("The \x27script\x27 attribute is not defined. [" ++ msg ++ "]")

/-- Translation of `impl From<FileContentError> for DagError` (src/src/yaml/mod.rs lines
105-113). -/
def fileContentErrorToDag : FileContentError → DagError
  | FileContentError.illegalYamlContent err => DagError.parserError err
  | FileContentError.empty file => DagError.parserError ("File is empty! [" ++ file ++ "]")

/-- Translation of `impl From<FileNotFound> for DagError` (src/src/yaml/mod.rs lines
115-119). -/
def fileNotFoundToDag (v : FileNotFound) : DagError :=
  DagError.parserError ("File not found. [" ++ v.err ++ "]")

/-- Is a `DagError` the `ParserError` variant? -/
def isParserError : DagError → Bool
  | DagError.parserError _ => true
  | _ => false

/-! ### Concurrent executor as a small-step relation
(modelled from the spec, sections 4.5 and 5) -/

/-- Modelled from the spec: the per-run state of the DAG executor
(`engine/dag.rs` not under src/): the tasks started so far, the tasks in
flight, the published output cache, and the name of the failed task once
an error envelope has been observed. -/
structure ExecState (V : Type) where
  dispatched : List Nat
  inFlight : List Nat
  outputs : List (Nat × Output V)
  failed : Option String

/-- Modelled from the spec: one step of the concurrent dispatch loop.  A
task may be dispatched only while no failure has been observed and all of
its predecessors have published outputs; a finishing task either
publishes its output, or sets the failure flag on an error envelope, or —
when it finishes after a failure was observed — is discarded. -/
inductive Step {V : Type} (d : Dag V) : ExecState V → ExecState V → Prop
  | dispatch (t : Task V) (s : ExecState V)
      (hnf : s.failed = none)
      (hmem : t ∈ d.tasks)
      (hnew : t.id ∉ s.dispatched)
      (hready : ∀ p ∈ t.predecessors, (s.outputs.find? (fun q => q.fst == p)).isSome = true) :
      Step d s { dispatched := t.id :: s.dispatched, inFlight := t.id :: s.inFlight,
                 outputs := s.outputs, failed := none }
  | finishOk (t : Task V) (s : ExecState V) (v : Output V)
      (hmem : t ∈ d.tasks) (hin : t.id ∈ s.inFlight)
      (hact : t.action (bundleOf s.outputs t) d.env = v)
      (hok : ∀ msg, v ≠ Output.errOut msg)
      (hnf : s.failed = none) :
      Step d s { dispatched := s.dispatched, inFlight := s.inFlight.erase t.id,
                 outputs := (t.id, v) :: s.outputs, failed := none }
  | finishErr (t : Task V) (s : ExecState V) (msg : String)
      (hmem : t ∈ d.tasks) (hin : t.id ∈ s.inFlight)
      (hact : t.action (bundleOf s.outputs t) d.env = Output.errOut msg)
      (hnf : s.failed = none) :
      Step d s { dispatched := s.dispatched, inFlight := s.inFlight.erase t.id,
                 outputs := s.outputs, failed := some t.name }
  | finishLate (t : Task V) (s : ExecState V) (nm : String)
      (hmem : t ∈ d.tasks) (hin : t.id ∈ s.inFlight)
      (hf : s.failed = some nm) :
      Step d s { dispatched := s.dispatched, inFlight := s.inFlight.erase t.id,
                 outputs := s.outputs, failed := some nm }

/-- Iterated executor steps: `n` steps in sequence. -/
inductive StepN {V : Type} (d : Dag V) : Nat → ExecState V → ExecState V → Prop
  | refl (s : ExecState V) : StepN d 0 s s
  | tail (s t u : ExecState V) (n : Nat) :
      Step d s t → StepN d n t u → StepN d (n + 1) s u

/-- Modelled from the spec: the result of a finished run — `TaskError` of
the failed task once no work is in flight after a failure, `Ok` when
every task has published an output. -/
def execResult {V : Type} (d : Dag V) (s : ExecState V) : Option (Except DagError Unit) :=
  if s.inFlight.isEmpty then
    match s.failed with
    | some nm => some (Except.error (DagError.taskError nm))
    | none =>
      if d.tasks.all (fun t => s.outputs.any (fun q => q.fst == t.id)) then
        some (Except.ok ())
      else none
  else none

/-! ### Cycles, closure and engine invariants (statement vocabulary) -/

/-- Is `C` a non-empty set of task ids each of which has, in the graph, a
declared predecessor again in `C`?  Such a set witnesses a directed
cycle. -/
def cycleSetOk {V : Type} (tasks : List (Task V)) (C : List Nat) : Bool :=
  !C.isEmpty &&
    C.all (fun c => tasks.any (fun t => t.id == c && t.predecessors.any (fun p => C.contains p)))

/-- The task graph contains a directed cycle: some non-empty id set is
closed under taking a declared predecessor inside the set. -/
def hasCycle {V : Type} (tasks : List (Task V)) : Prop :=
  ∃ C : List Nat, cycleSetOk tasks C = true

/-- Every declared predecessor id belongs to a task of the graph (the
closed-world invariant of the spec). -/
abbrev closedWorld {V : Type} (tasks : List (Task V)) : Prop :=
  ∀ t ∈ tasks, ∀ p ∈ t.predecessors, ∃ t2 ∈ tasks, t2.id = p

/-- Engine states reachable from `Engine::default()` by `append_dag`,
`run_dag`, `run_sequential` and `get_dag_result`. -/
inductive Reachable {V : Type} : Engine V → Prop
  | default : Reachable (engineDefault : Engine V)
  | append (e : Engine V) (name : String) (dag : Dag V) :
      Reachable e → Reachable (appendDag e name dag).1
  | runOne (e : Engine V) (name : String) :
      Reachable e → Reachable (runDagM e name).1
  | runSeq (e e2 : Engine V) (r : Except DagError Unit) :
      Reachable e → runSequential e = some (e2, r) → Reachable e2
  | getRes (e : Engine V) (name : String) :
      Reachable e → Reachable (getDagResultM e name).2

/-- The registry invariant of claim C9: the sequence registry's keys are
exactly `1..n` for `n` the number of registered DAGs, and its values are
exactly the registered names. -/
def EngineInv {V : Type} (e : Engine V) : Prop :=
  (keysOf e.dags).Nodup ∧ (keysOf e.sequence).Nodup
    ∧ e.sequence.length = e.dags.length
    ∧ (∀ k : Nat, hmContains e.sequence k = true ↔ (1 ≤ k ∧ k ≤ e.dags.length))
    ∧ (∀ (k : Nat) (nm : String), hmGet e.sequence k = some nm → hmContains e.dags nm = true)
    ∧ (∀ nm : String, hmContains e.dags nm = true → ∃ k : Nat, hmGet e.sequence k = some nm)

/-! ### Concrete values used by witnesses and counterexamples -/

/-- A one-task workload producing the value 5. -/
def egTask1 : Task Nat :=
  { id := 1, name := "t1", predecessors := [], action := fun _ _ => Output.newOut 5 }

/-- A second one-task workload. -/
def egTask2 : Task Nat :=
  { id := 2, name := "t2", predecessors := [], action := fun _ _ => Output.newOut 7 }

/-- An already initialized DAG holding `egTask1`. -/
def egDag1 : Dag Nat :=
  { tasks := [egTask1], env := [], executionSequence := [1], execResults := [], finalResult := none }

/-- An already initialized DAG holding `egTask2`. -/
def egDag2 : Dag Nat :=
  { tasks := [egTask2], env := [], executionSequence := [2], execResults := [], finalResult := none }

/-- An engine holding two DAGs with sequence numbers 1 and 2. -/
def egEngine2 : Engine Nat :=
  { dags := [("d1", egDag1), ("d2", egDag2)], sequence := [(1, "d1"), (2, "d2")] }

/-- A task declaring itself (id 1) and a missing task (id 2) as
predecessors: its graph has a self-loop and a dangling reference. -/
def cexTask : Task Nat :=
  { id := 1, name := "a", predecessors := [1, 2], action := fun _ _ => Output.emptyOut }

/-- The one-task graph with both a cycle and a dangling predecessor. -/
def cexDag : Dag Nat := dagWithTasks [cexTask]

/-- Three tasks forming the cycle a -> c -> b -> a of the repository's
`task_loop_graph` test. -/
def cycTasks : List (Task Nat) :=
  [ { id := 1, name := "a", predecessors := [2], action := fun _ _ => Output.emptyOut },
    { id := 2, name := "b", predecessors := [3], action := fun _ _ => Output.emptyOut },
    { id := 3, name := "c", predecessors := [1], action := fun _ _ => Output.emptyOut } ]

/-- The cyclic three-task DAG. -/
def cycDag : Dag Nat := dagWithTasks cycTasks

/-- A task whose action returns an error envelope. -/
def failTask : Task Nat :=
  { id := 1, name := "fail", predecessors := [], action := fun _ _ => Output.errOut "error" }

/-- An initialized DAG holding only `failTask`. -/
def failDag : Dag Nat :=
  { tasks := [failTask], env := [], executionSequence := [1], execResults := [], finalResult := none }

/-- Executor state of `failDag` after dispatching task 1. -/
def c4State0 : ExecState Nat :=
  { dispatched := [1], inFlight := [1], outputs := [], failed := none }

/-- Executor state of `failDag` after task 1 finished with the error
envelope. -/
def c4State1 : ExecState Nat :=
  { dispatched := [1], inFlight := [1].erase 1, outputs := [], failed := some "fail" }

/-! ## Lemmas about the association-list HashMap embedding -/

theorem hmGet_hmInsert_self {K A : Type} [DecidableEq K] (m : List (K × A)) (k : K) (a : A) :
    hmGet (hmInsert m k a) k = some a := by
  induction m with
  | nil => simp [hmInsert, hmGet]
  | cons q rest ih =>
    by_cases h : q.fst = k
    · simp [hmInsert, h, hmGet]
    · simp [hmInsert, h, hmGet, ih]

theorem hmGet_hmInsert_ne {K A : Type} [DecidableEq K] (m : List (K × A)) (k j : K) (a : A)
    (h : j ≠ k) : hmGet (hmInsert m k a) j = hmGet m j := by
  induction m with
  | nil => simp [hmInsert, hmGet, Ne.symm h]
  | cons q rest ih =>
    by_cases hq : q.fst = k
    · have hqj : q.fst ≠ j := by rw [hq]; exact Ne.symm h
      simp [hmInsert, hq, hmGet, hqj, Ne.symm h]
    · rw [show hmInsert (q :: rest) k a = q :: hmInsert rest k a from by simp [hmInsert, hq]]
      by_cases hqj : q.fst = j
      · simp [hmGet, hqj]
      · simp [hmGet, hqj, ih]

theorem hmContains_iff_mem {K A : Type} [DecidableEq K] (m : List (K × A)) (k : K) :
    hmContains m k = true ↔ k ∈ keysOf m := by
  induction m with
  | nil => simp [hmContains, hmGet, keysOf]
  | cons q rest ih =>
    by_cases h : q.fst = k
    · simp [hmContains, hmGet, keysOf, h]
    · have h1 : hmContains (q :: rest) k = hmContains rest k := by
        unfold hmContains
        simp [hmGet, h]
      rw [h1, ih]
      simp [keysOf, List.mem_cons, Ne.symm h]

theorem hmContains_eq_false_iff {K A : Type} [DecidableEq K] (m : List (K × A)) (k : K) :
    hmContains m k = false ↔ k ∉ keysOf m := by
  rw [← hmContains_iff_mem]
  cases hmContains m k <;> simp

theorem hmGet_isSome_of_contains {K A : Type} [DecidableEq K] (m : List (K × A)) (k : K)
    (h : hmContains m k = true) : (hmGet m k).isSome = true := h

theorem hmGet_eq_none_of_not_contains {K A : Type} [DecidableEq K] (m : List (K × A)) (k : K)
    (h : hmContains m k = false) : hmGet m k = none := by
  unfold hmContains at h
  cases hg : hmGet m k
  · rfl
  · rw [hg] at h; simp at h

theorem hmInsert_eq_append {K A : Type} [DecidableEq K] (m : List (K × A)) (k : K) (a : A)
    (h : hmContains m k = false) : hmInsert m k a = m ++ [(k, a)] := by
  induction m with
  | nil => simp [hmInsert]
  | cons q rest ih =>
    by_cases hq : q.fst = k
    · exfalso
      have : hmContains (q :: rest) k = true := by simp [hmContains, hmGet, hq]
      rw [this] at h; cases h
    · have hrest : hmContains rest k = false := by
        unfold hmContains at h ⊢
        rw [show hmGet (q :: rest) k = hmGet rest k by simp [hmGet, hq]] at h
        exact h
      simp [hmInsert, hq, ih hrest]

theorem keysOf_hmInsert_of_contains {K A : Type} [DecidableEq K] (m : List (K × A)) (k : K)
    (a : A) (h : hmContains m k = true) : keysOf (hmInsert m k a) = keysOf m := by
  induction m with
  | nil => simp [hmContains, hmGet] at h
  | cons q rest ih =>
    by_cases hq : q.fst = k
    · simp [hmInsert, hq, keysOf]
    · have hrest : hmContains rest k = true := by
        unfold hmContains at h ⊢
        rw [show hmGet (q :: rest) k = hmGet rest k by simp [hmGet, hq]] at h
        exact h
      simp only [hmInsert, if_neg hq, keysOf, List.map_cons]
      rw [show (hmInsert rest k a).map Prod.fst = keysOf (hmInsert rest k a) from rfl,
        ih hrest]
      rfl

theorem hmContains_hmInsert {K A : Type} [DecidableEq K] (m : List (K × A)) (k j : K) (a : A) :
    hmContains (hmInsert m k a) j = true ↔ (j = k ∨ hmContains m j = true) := by
  by_cases h : j = k
  · subst h
    simp [hmContains, hmGet_hmInsert_self]
  · rw [show hmContains (hmInsert m k a) j = hmContains m j by
      unfold hmContains; rw [hmGet_hmInsert_ne m k j a h]]
    simp [h]

/-! ## Engine frame lemmas -/

theorem runDagM_sequence {V : Type} (e : Engine V) (name : String) :
    (runDagM e name).1.sequence = e.sequence := by
  cases hg : hmGet e.dags name <;> simp [runDagM, hg]

theorem runDagM_dags_keys {V : Type} (e : Engine V) (name : String) :
    keysOf (runDagM e name).1.dags = keysOf e.dags := by
  cases hg : hmGet e.dags name with
  | none => simp [runDagM, hg]
  | some d =>
    have hc : hmContains e.dags name = true := by simp [hmContains, hg]
    simp only [runDagM, hg]
    exact keysOf_hmInsert_of_contains e.dags name _ hc

/-! ## Claims -/

/-- C2: an unbound name makes `run_dag` return `EmptyJob` with the engine
untouched (so no task runs), and a DAG built from an empty task list
fails `start` with `EmptyJob`, executing no task. -/
theorem claim_C2 {V : Type} (e : Engine V) (name : String)
    (h : hmContains e.dags name = false) :
    runDagM e name = (e, Except.error DagError.emptyJob)
  ∧ ∀ env : EnvVar V,
      dagStart { dagWithTasks ([] : List (Task V)) with env := env }
        = (Except.error DagError.emptyJob, []) := by
  constructor
  · have hg : hmGet e.dags name = none := hmGet_eq_none_of_not_contains e.dags name h
    simp [runDagM, hg]
  · intro env; rfl

/-- Witness for C2 at the default engine and the name "x". -/
theorem claim_C2_witness :
    hmContains (engineDefault : Engine Nat).dags "x" = false
  ∧ (runDagM (engineDefault : Engine Nat) "x" = (engineDefault, Except.error DagError.emptyJob)
     ∧ ∀ env : EnvVar Nat,
         dagStart { dagWithTasks ([] : List (Task Nat)) with env := env }
           = (Except.error DagError.emptyJob, [])) :=
  ⟨rfl, claim_C2 engineDefault "x" rfl⟩

/-- C5: appending an unbound name whose DAG initializes successfully binds
the name to the initialized DAG and binds sequence number
`sequence.len() + 1` (1-based insertion order) to the name. -/
theorem claim_C5 {V : Type} (e : Engine V) (name : String) (dag d2 : Dag V)
    (hfresh : hmContains e.dags name = false)
    (hinit : dagInit dag = Except.ok d2) :
    hmGet (appendDag e name dag).1.dags name = some d2
  ∧ hmGet (appendDag e name dag).1.sequence (e.sequence.length + 1) = some name := by
  simp only [appendDag, hfresh, Bool.false_eq_true, if_false, hinit]
  exact ⟨hmGet_hmInsert_self e.dags name d2,
    hmGet_hmInsert_self e.sequence (e.sequence.length + 1) name⟩

/-- Witness for C5: appending a one-task DAG to the default engine. -/
theorem claim_C5_witness :
    hmContains (engineDefault : Engine Nat).dags "d" = false
  ∧ dagInit (dagWithTasks [egTask1]) = Except.ok egDag1
  ∧ (hmGet (appendDag (engineDefault : Engine Nat) "d" (dagWithTasks [egTask1])).1.dags "d"
       = some egDag1
     ∧ hmGet (appendDag (engineDefault : Engine Nat) "d" (dagWithTasks [egTask1])).1.sequence
         ((engineDefault : Engine Nat).sequence.length + 1) = some "d") :=
  ⟨rfl, rfl, claim_C5 engineDefault "d" (dagWithTasks [egTask1]) egDag1 rfl rfl⟩

/-- C6: appending an unbound name whose DAG fails initialization leaves
both registries exactly as they were; the failure is only logged and the
operation's return type carries no error. -/
theorem claim_C6 {V : Type} (e : Engine V) (name : String) (dag : Dag V) (err : DagError)
    (hfresh : hmContains e.dags name = false)
    (hfail : dagInit dag = Except.error err) :
    (appendDag e name dag).1 = e
  ∧ hmContains (appendDag e name dag).1.dags name = false := by
  have hbranch : appendDag e name dag = (e, true) := by
    simp [appendDag, hfresh, hfail]
  rw [hbranch]
  exact ⟨rfl, hfresh⟩

/-- Witness for C6: appending the empty DAG (which fails initialization
with `EmptyJob`) to the default engine. -/
theorem claim_C6_witness :
    hmContains (engineDefault : Engine Nat).dags "x" = false
  ∧ dagInit (dagWithTasks ([] : List (Task Nat))) = Except.error DagError.emptyJob
  ∧ ((appendDag (engineDefault : Engine Nat) "x" (dagWithTasks [])).1 = engineDefault
     ∧ hmContains (appendDag (engineDefault : Engine Nat) "x" (dagWithTasks [])).1.dags "x"
         = false) :=
  ⟨rfl, rfl, claim_C6 engineDefault "x" (dagWithTasks []) DagError.emptyJob rfl rfl⟩

/-- C7: appending under an already bound name changes nothing and never
invokes `init` on the new DAG. -/
theorem claim_C7 {V : Type} (e : Engine V) (name : String) (dag : Dag V)
    (h : hmContains e.dags name = true) :
    appendDag e name dag = (e, false) := by
  simp [appendDag, h]

/-- Witness for C7 at an engine that already binds "d1". -/
theorem claim_C7_witness :
    hmContains egEngine2.dags "d1" = true
  ∧ appendDag egEngine2 "d1" (dagWithTasks ([] : List (Task Nat))) = (egEngine2, false) :=
  ⟨rfl, claim_C7 egEngine2 "d1" (dagWithTasks []) rfl⟩

/-- C8: every `YamlTaskError`, every `FileContentError` and `FileNotFound`
convert to the top-level error exactly as `DagError::ParserError` carrying
a message, never to any other variant. -/
theorem claim_C8 :
    (∀ e : YamlTaskError, ∃ msg, yamlTaskErrorToDag e = DagError.parserError msg)
  ∧ (∀ e : FileContentError, ∃ msg, fileContentErrorToDag e = DagError.parserError msg)
  ∧ (∀ e : FileNotFound, ∃ msg, fileNotFoundToDag e = DagError.parserError msg) := by
  refine ⟨fun e => ?_, fun e => ?_, fun e => ⟨_, rfl⟩⟩
  · cases e <;> exact ⟨_, rfl⟩
  · cases e <;> exact ⟨_, rfl⟩

/-- C10: `get_dag_result` on an unbound name returns `None` and leaves the
engine untouched (the value type `V` is universally quantified, embedding
"for every type T"). -/
theorem claim_C10 {V : Type} (e : Engine V) (name : String)
    (h : hmGet e.dags name = none) :
    getDagResultM e name = (none, e) := by
  simp [getDagResultM, h]

/-- Witness for C10 at the default engine and the name "x". -/
theorem claim_C10_witness :
    hmGet (engineDefault : Engine Nat).dags "x" = none
  ∧ getDagResultM (engineDefault : Engine Nat) "x" = (none, engineDefault) :=
  ⟨rfl, claim_C10 engineDefault "x" rfl⟩

/-! ## Claim C1: run_sequential refines the chained run_dag calls -/

theorem runSeqFrom_eq_chain {V : Type} (names : List String) :
    ∀ (e : Engine V) (k : Nat),
    (∀ i, i < names.length → hmGet e.sequence (k + i) = some (names.getD i "")) →
    runSeqFrom e k names.length = some (runDagsChain e names) := by
  induction names with
  | nil => intro e k _; rfl
  | cons n rest ih =>
    intro e k hb
    have h0 : hmGet e.sequence k = some n := by
      have := hb 0 (by simp)
      simpa using this
    cases hrun : runDagM e n with
    | mk e2 res =>
      cases res with
      | error err =>
        simp [runSeqFrom, h0, hrun, runDagsChain]
      | ok u =>
        cases u
        have hseq : e2.sequence = e.sequence := by
          have hpres := runDagM_sequence e n
          rw [hrun] at hpres
          exact hpres
        have hb2 : ∀ i, i < rest.length → hmGet e2.sequence (k + 1 + i) = some (rest.getD i "") := by
          intro i hi
          rw [hseq]
          have := hb (i + 1) (by simpa using Nat.succ_lt_succ hi)
          rw [show k + (i + 1) = k + 1 + i by omega] at this
          simpa using this
        have hrec := ih e2 (k + 1) hb2
        simp [runSeqFrom, h0, hrun, runDagsChain, hrec]

/-- C1: when the sequence registry binds the numbers `1..n` to the names
`names[0] .. names[n-1]`, `run_sequential` is observationally equivalent
(same final engine, same result) to calling `run_dag` on each of those
names in order, stopping at the first error; and with no registered
sequence numbers it succeeds immediately. -/
theorem claim_C1 {V : Type} (e : Engine V) (names : List String)
    (hlen : names.length = e.sequence.length)
    (hbind : ∀ i, i < names.length → hmGet e.sequence (1 + i) = some (names.getD i "")) :
    runSequential e = some (runDagsChain e names)
  ∧ (e.sequence.length = 0 → runSequential e = some (e, Except.ok ())) := by
  constructor
  · unfold runSequential
    rw [← hlen]
    exact runSeqFrom_eq_chain names e 1 hbind
  · intro h0
    unfold runSequential
    rw [h0]
    rfl

/-- Witness for C1 at a two-DAG engine. -/
theorem claim_C1_witness :
    (["d1", "d2"] : List String).length = egEngine2.sequence.length
  ∧ (∀ i, i < (["d1", "d2"] : List String).length →
       hmGet egEngine2.sequence (1 + i) = some ((["d1", "d2"] : List String).getD i ""))
  ∧ (runSequential egEngine2 = some (runDagsChain egEngine2 ["d1", "d2"])
     ∧ (egEngine2.sequence.length = 0 → runSequential egEngine2 = some (egEngine2, Except.ok ()))) :=
  ⟨rfl, by decide, claim_C1 egEngine2 ["d1", "d2"] rfl (by decide)⟩

/-! ## Claim C4: after an observed task failure nothing new starts -/

theorem stepN_after_failure {V : Type} (d : Dag V) (nm : String) (n : Nat)
    (s u : ExecState V) (h : StepN d n s u) :
    s.failed = some nm →
    u.failed = some nm ∧ u.dispatched = s.dispatched ∧ u.outputs = s.outputs
      ∧ n + u.inFlight.length = s.inFlight.length := by
  induction h with
  | refl s =>
    intro hf
    exact ⟨hf, rfl, rfl, by simp⟩
  | tail s t u n hstep hrest ih =>
    intro hf
    cases hstep with
    | dispatch tk s2 hnf hmem hnew hready =>
      rw [hf] at hnf; cases hnf
    | finishOk tk s2 v hmem hin hact hok hnf =>
      rw [hf] at hnf; cases hnf
    | finishErr tk s2 msg hmem hin hact hnf =>
      rw [hf] at hnf; cases hnf
    | finishLate tk s2 nm2 hmem hin hf2 =>
      have hnm : nm2 = nm := by
        rw [hf] at hf2
        exact (Option.some.inj hf2).symm
      subst hnm
      obtain ⟨ih1, ih2, ih3, ih4⟩ := ih rfl
      refine ⟨ih1, ih2, ih3, ?_⟩
      have herase : (s.inFlight.erase tk.id).length = s.inFlight.length - 1 :=
        List.length_erase_of_mem hin
      have hpos : 0 < s.inFlight.length := List.length_pos_of_mem hin
      have ih4b : n + u.inFlight.length = (s.inFlight.erase tk.id).length := ih4
      rw [herase] at ih4b
      omega

/-- C4: once a step of a successfully initialized run observes a task's
error envelope, that failing task's action indeed returned an error
envelope; from then on no further task is dispatched, every late-finishing
in-flight task is discarded without publishing an output, at most the
in-flight tasks can still take steps, and as soon as nothing is in flight
the run's result is `TaskError`. -/
theorem claim_C4 {V : Type} (d : Dag V) (s0 s1 u : ExecState V) (nm : String) (n : Nat)
    (hstep : Step d s0 s1) (h0 : s0.failed = none) (h1 : s1.failed = some nm)
    (hrest : StepN d n s1 u) :
    (∃ t msg, t ∈ d.tasks ∧ t.action (bundleOf s0.outputs t) d.env = Output.errOut msg
       ∧ nm = t.name)
  ∧ u.failed = some nm
  ∧ u.dispatched = s1.dispatched
  ∧ u.outputs = s1.outputs
  ∧ n + u.inFlight.length = s1.inFlight.length
  ∧ (u.inFlight.isEmpty = true → execResult d u = some (Except.error (DagError.taskError nm))) := by
  obtain ⟨ih1, ih2, ih3, ih4⟩ := stepN_after_failure d nm n s1 u hrest h1
  refine ⟨?_, ih1, ih2, ih3, ih4, ?_⟩
  · cases hstep with
    | dispatch tk s2 hnf hmem hnew hready => cases h1
    | finishOk tk s2 v hmem hin hact hok hnf => cases h1
    | finishErr tk s2 msg hmem hin hact hnf =>
      have hnm : nm = tk.name := (Option.some.inj h1.symm)
      exact ⟨tk, msg, hmem, hact, hnm⟩
    | finishLate tk s2 nm2 hmem hin hf2 =>
      rw [h0] at hf2; cases hf2
  · intro hemp
    simp [execResult, hemp, ih1]

/-- Witness for C4: the one-task DAG whose action errors, one finishing
step observing the failure, zero further steps. -/
theorem claim_C4_witness :
    c4State0.failed = none
  ∧ c4State1.failed = some "fail"
  ∧ ((∃ t msg, t ∈ failDag.tasks
        ∧ t.action (bundleOf c4State0.outputs t) failDag.env = Output.errOut msg
        ∧ "fail" = t.name)
     ∧ c4State1.failed = some "fail"
     ∧ c4State1.dispatched = c4State1.dispatched
     ∧ c4State1.outputs = c4State1.outputs
     ∧ 0 + c4State1.inFlight.length = c4State1.inFlight.length
     ∧ (c4State1.inFlight.isEmpty = true →
          execResult failDag c4State1 = some (Except.error (DagError.taskError "fail")))) :=
  ⟨rfl, rfl,
    claim_C4 failDag c4State0 c4State1 c4State1 "fail" 0
      (Step.finishErr failTask c4State0 "error"
        (by simp [failDag]) (by decide) rfl rfl)
      rfl rfl (StepN.refl c4State1)⟩

/-! ## Claim C3: cycles and graph initialization -/

theorem pickMin_mem {V : Type} (l : List (Task V)) (u : Task V) (h : pickMin l = some u) :
    u ∈ l := by
  induction l with
  | nil => simp [pickMin] at h
  | cons t rest ih =>
    rw [pickMin] at h
    cases hr : pickMin rest with
    | none =>
      rw [hr] at h
      have : t = u := by simpa using h
      rw [← this]
      exact List.mem_cons_self t rest
    | some w =>
      rw [hr] at h
      have h2 : (if t.id ≤ w.id then some t else some w) = some u := h
      by_cases hle : t.id ≤ w.id
      · rw [if_pos hle] at h2
        have : t = u := by simpa using h2
        rw [← this]
        exact List.mem_cons_self t rest
      · rw [if_neg hle] at h2
        have hw : w = u := by simpa using h2
        rw [hw] at hr
        exact List.mem_cons_of_mem t (ih hr)

theorem mem_zeros {V : Type} (remaining : List (Task V)) (u : Task V)
    (h : u ∈ zeros remaining) : u ∈ remaining ∧ indeg remaining u = 0 := by
  unfold zeros at h
  have h2 := List.mem_filter.1 h
  exact ⟨h2.1, by simpa using h2.2⟩

theorem kahnAux_stuck {V : Type} (C : List Nat) (c0 : Nat) (hc0 : c0 ∈ C) :
    ∀ (fuel : Nat) (remaining : List (Task V)) (acc : List Nat),
    (∀ c ∈ C, ∃ t, t ∈ remaining ∧ t.id = c ∧ ∃ p ∈ t.predecessors, p ∈ C) →
    (remaining.map Task.id).Nodup →
    kahnAux fuel remaining acc = none := by
  intro fuel
  induction fuel with
  | zero =>
    intro remaining acc hinv _
    obtain ⟨t, ht, -⟩ := hinv c0 hc0
    have hne : remaining.isEmpty = false := by
      cases remaining
      · cases ht
      · rfl
    simp [kahnAux, hne]
  | succ fuel ih =>
    intro remaining acc hinv hnd
    obtain ⟨t0, ht0, -⟩ := hinv c0 hc0
    have hne : remaining.isEmpty = false := by
      cases remaining
      · cases ht0
      · rfl
    cases hp : pickMin (zeros remaining) with
    | none => simp [kahnAux, hne, hp]
    | some u =>
      have hu := mem_zeros remaining u (pickMin_mem _ u hp)
      have hinv2 : ∀ c ∈ C, ∃ t, t ∈ removeId remaining u.id ∧ t.id = c
          ∧ ∃ p ∈ t.predecessors, p ∈ C := by
        intro c hc
        obtain ⟨t, ht, hid, p, hpmem, hpC⟩ := hinv c hc
        refine ⟨t, ?_, hid, p, hpmem, hpC⟩
        have htu : t.id ≠ u.id := by
          intro heq
          have hteq : t = u := List.inj_on_of_nodup_map hnd ht hu.1 heq
          obtain ⟨tp, htp, hidp, -⟩ := hinv p hpC
          have hstill : stillHas remaining p = true := by
            unfold stillHas
            rw [List.any_eq_true]
            exact ⟨tp, htp, by simp [hidp]⟩
          have hmemf : p ∈ t.predecessors.filter (stillHas remaining) :=
            List.mem_filter.2 ⟨hpmem, hstill⟩
          have h1 : 0 < (t.predecessors.filter (stillHas remaining)).length :=
            List.length_pos_of_mem hmemf
          have h2 : indeg remaining u = 0 := hu.2
          rw [← hteq] at h2
          unfold indeg at h2
          omega
        unfold removeId
        exact List.mem_filter.2 ⟨ht, by simpa using htu⟩
      have hnd2 : ((removeId remaining u.id).map Task.id).Nodup := by
        unfold removeId
        exact List.Nodup.sublist (List.Sublist.map Task.id (List.filter_sublist remaining)) hnd
      simp only [kahnAux, hne, Bool.false_eq_true, if_false, hp]
      exact ih (removeId remaining u.id) (acc.concat u.id) hinv2 hnd2

theorem cycle_unpack {V : Type} (tasks : List (Task V)) (C : List Nat)
    (hC : cycleSetOk tasks C = true) :
    C ≠ [] ∧ ∀ c ∈ C, ∃ t, t ∈ tasks ∧ t.id = c ∧ ∃ p ∈ t.predecessors, p ∈ C := by
  unfold cycleSetOk at hC
  rw [Bool.and_eq_true] at hC
  constructor
  · intro hnil
    rw [hnil] at hC
    simp at hC
  · intro c hc
    have h1 := (List.all_eq_true.1 hC.2) c hc
    rw [List.any_eq_true] at h1
    obtain ⟨t, ht, hcond⟩ := h1
    rw [Bool.and_eq_true] at hcond
    refine ⟨t, ht, by simpa using hcond.1, ?_⟩
    have h2 := hcond.2
    rw [List.any_eq_true] at h2
    obtain ⟨p, hp, hpc⟩ := h2
    refine ⟨p, hp, ?_⟩
    simpa using hpc

theorem kahn_eq_none_of_cycle {V : Type} (tasks : List (Task V))
    (hnd : (tasks.map Task.id).Nodup) (hcyc : hasCycle tasks) :
    kahn tasks = none := by
  obtain ⟨C, hC⟩ := hcyc
  obtain ⟨hCne, hprop⟩ := cycle_unpack tasks C hC
  obtain ⟨c0, hc0⟩ := List.exists_mem_of_ne_nil C hCne
  exact kahnAux_stuck C c0 hc0 tasks.length tasks [] hprop hnd

theorem findIllegal_eq_none {V : Type} (tasks : List (Task V)) (h : closedWorld tasks) :
    findIllegal tasks = none := by
  unfold findIllegal
  rw [Option.map_eq_none']
  rw [List.find?_eq_none]
  intro t ht
  unfold predMissing
  rw [List.any_eq_true]
  rintro ⟨p, hp, hcond⟩
  obtain ⟨t2, ht2, hid⟩ := h t ht p hp
  have hany : tasks.any (fun t2 => t2.id == p) = true :=
    List.any_eq_true.2 ⟨t2, ht2, by simp [hid]⟩
  rw [hany] at hcond
  simp at hcond

/-- Counterexample to C3 as stated: the one-task graph whose task declares
itself and a missing task as predecessors contains a directed cycle, yet
initialization fails with `RelyTaskIllegal` (no task runs), not with
`LoopGraph` — the closure check of section 4.4 runs before cycle
detection. -/
theorem claim_C3_counterexample :
    hasCycle cexDag.tasks
  ∧ dagStart cexDag = (Except.error (DagError.relyTaskIllegal "a"), [])
  ∧ dagStart cexDag ≠ (Except.error DagError.loopGraph, []) := by
  refine ⟨⟨[1], by decide⟩, rfl, ?_⟩
  intro h
  have h3 : Except.error (ε := DagError) (α := Unit) (DagError.relyTaskIllegal "a")
      = Except.error DagError.loopGraph := congrArg Prod.fst h
  cases Except.error.inj h3

/-- C3 (amended): for every task graph with pairwise-distinct task ids all
of whose declared predecessor ids refer to tasks present in the graph, if
the graph contains a directed cycle (including the self-loop case) then
initialization fails with `LoopGraph` and no task action is executed. -/
theorem claim_C3_amended {V : Type} (d : Dag V)
    (hnd : (d.tasks.map Task.id).Nodup)
    (hclosed : closedWorld d.tasks)
    (hcyc : hasCycle d.tasks) :
    dagStart d = (Except.error DagError.loopGraph, []) := by
  have hke : kahn d.tasks = none := kahn_eq_none_of_cycle d.tasks hnd hcyc
  have hil : findIllegal d.tasks = none := findIllegal_eq_none d.tasks hclosed
  have hne : d.tasks.isEmpty = false := by
    obtain ⟨C, hC⟩ := hcyc
    obtain ⟨hCne, hprop⟩ := cycle_unpack d.tasks C hC
    obtain ⟨c0, hc0⟩ := List.exists_mem_of_ne_nil C hCne
    obtain ⟨t, ht, -⟩ := hprop c0 hc0
    cases hd : d.tasks
    · rw [hd] at ht; cases ht
    · rfl
  unfold dagStart dagInit
  simp [hne, hil, hke]

/-- Witness for the amended C3: the three-task cycle of the repository's
`task_loop_graph` test. -/
theorem claim_C3_witness :
    (cycDag.tasks.map Task.id).Nodup
  ∧ closedWorld cycDag.tasks
  ∧ hasCycle cycDag.tasks
  ∧ dagStart cycDag = (Except.error DagError.loopGraph, []) :=
  ⟨by decide, by decide, ⟨[1, 2, 3], by decide⟩,
    claim_C3_amended cycDag (by decide) (by decide) ⟨[1, 2, 3], by decide⟩⟩

/-! ## Claim C9: the registry invariant over reachable engine states -/

theorem keysOf_append {K A : Type} (m : List (K × A)) (k : K) (a : A) :
    keysOf (m ++ [(k, a)]) = keysOf m ++ [k] := by
  simp [keysOf]

theorem engineInv_transfer {V : Type} (e e2 : Engine V)
    (hk : keysOf e2.dags = keysOf e.dags) (hs : e2.sequence = e.sequence)
    (h : EngineInv e) : EngineInv e2 := by
  obtain ⟨h1, h2, h3, h4, h5, h6⟩ := h
  have hlen : e2.dags.length = e.dags.length := by
    have h7 := congrArg List.length hk
    simpa [keysOf] using h7
  refine ⟨by rw [hk]; exact h1, by rw [hs]; exact h2, by rw [hs, hlen]; exact h3, ?_, ?_, ?_⟩
  · intro k
    rw [hs, hlen]
    exact h4 k
  · intro k nm hg
    rw [hs] at hg
    have hc := h5 k nm hg
    rw [hmContains_iff_mem] at hc ⊢
    rw [hk]
    exact hc
  · intro nm hc
    rw [hmContains_iff_mem, hk, ← hmContains_iff_mem] at hc
    obtain ⟨k, hg⟩ := h6 nm hc
    exact ⟨k, by rw [hs]; exact hg⟩

theorem engineInv_extend {V : Type} (e : Engine V) (name : String) (d2 : Dag V)
    (hfresh : hmContains e.dags name = false) (h : EngineInv e) :
    EngineInv ({ dags := hmInsert e.dags name d2,
                 sequence := hmInsert e.sequence (e.sequence.length + 1) name } : Engine V) := by
  obtain ⟨h1, h2, h3, h4, h5, h6⟩ := h
  have hseqfresh : hmContains e.sequence (e.sequence.length + 1) = false := by
    cases hcv : hmContains e.sequence (e.sequence.length + 1)
    · rfl
    · have h7 := (h4 _).1 hcv
      omega
  have hdagsA : hmInsert e.dags name d2 = e.dags ++ [(name, d2)] :=
    hmInsert_eq_append e.dags name d2 hfresh
  have hseqA : hmInsert e.sequence (e.sequence.length + 1) name
      = e.sequence ++ [(e.sequence.length + 1, name)] :=
    hmInsert_eq_append e.sequence (e.sequence.length + 1) name hseqfresh
  have hdlen : (hmInsert e.dags name d2).length = e.dags.length + 1 := by
    rw [hdagsA]; simp
  have hnamefresh : name ∉ keysOf e.dags := (hmContains_eq_false_iff e.dags name).1 hfresh
  have hkeyfresh : (e.sequence.length + 1) ∉ keysOf e.sequence :=
    (hmContains_eq_false_iff e.sequence _).1 hseqfresh
  refine ⟨?_, ?_, ?_, ?_, ?_, ?_⟩
  · show (keysOf (hmInsert e.dags name d2)).Nodup
    rw [hdagsA, keysOf_append]
    rw [List.nodup_append]
    exact ⟨h1, List.nodup_singleton name, by
      intro a ha hb
      rw [List.mem_singleton] at hb
      rw [hb] at ha
      exact hnamefresh ha⟩
  · show (keysOf (hmInsert e.sequence (e.sequence.length + 1) name)).Nodup
    rw [hseqA, keysOf_append]
    rw [List.nodup_append]
    exact ⟨h2, List.nodup_singleton _, by
      intro a ha hb
      rw [List.mem_singleton] at hb
      rw [hb] at ha
      exact hkeyfresh ha⟩
  · show (hmInsert e.sequence (e.sequence.length + 1) name).length
      = (hmInsert e.dags name d2).length
    rw [hseqA, hdlen]
    simp [h3]
  · intro k
    show hmContains (hmInsert e.sequence (e.sequence.length + 1) name) k = true
      ↔ 1 ≤ k ∧ k ≤ (hmInsert e.dags name d2).length
    rw [hmContains_hmInsert, h4 k, hdlen, h3]
    omega
  · intro k nm hg
    show hmContains (hmInsert e.dags name d2) nm = true
    by_cases hk : k = e.sequence.length + 1
    · rw [hk] at hg
      rw [hmGet_hmInsert_self] at hg
      have hnm : name = nm := Option.some.inj hg
      rw [hmContains_hmInsert]
      exact Or.inl hnm.symm
    · rw [hmGet_hmInsert_ne e.sequence _ k name hk] at hg
      rw [hmContains_hmInsert]
      exact Or.inr (h5 k nm hg)
  · intro nm hc
    rw [hmContains_hmInsert] at hc
    cases hc with
    | inl hnm =>
      refine ⟨e.sequence.length + 1, ?_⟩
      rw [hmGet_hmInsert_self, hnm]
    | inr hold =>
      obtain ⟨k, hg⟩ := h6 nm hold
      have hkle : k ≤ e.sequence.length := by
        have hck : hmContains e.sequence k = true := by
          unfold hmContains
          rw [hg]
          rfl
        have h7 := (h4 k).1 hck
        omega
      refine ⟨k, ?_⟩
      rw [hmGet_hmInsert_ne e.sequence _ k name (by omega)]
      exact hg

theorem engineInv_appendDag {V : Type} (e : Engine V) (name : String) (dag : Dag V)
    (h : EngineInv e) : EngineInv (appendDag e name dag).1 := by
  by_cases hc : hmContains e.dags name = true
  · rw [show appendDag e name dag = (e, false) by simp [appendDag, hc]]
    exact h
  · have hc2 : hmContains e.dags name = false := by
      cases hcv : hmContains e.dags name
      · rfl
      · exact absurd hcv hc
    cases hinit : dagInit dag with
    | error err =>
      rw [show appendDag e name dag = (e, true) by simp [appendDag, hc2, hinit]]
      exact h
    | ok d2 =>
      rw [show (appendDag e name dag).1
          = ({ dags := hmInsert e.dags name d2,
               sequence := hmInsert e.sequence (e.sequence.length + 1) name } : Engine V) by
        simp [appendDag, hc2, hinit]]
      exact engineInv_extend e name d2 hc2 h

theorem getDagResultM_engine {V : Type} (e : Engine V) (name : String) :
    (getDagResultM e name).2 = e := by
  cases hg : hmGet e.dags name <;> simp [getDagResultM, hg]

theorem runSeqFrom_preserves {V : Type} :
    ∀ (fuel s : Nat) (e e2 : Engine V) (r : Except DagError Unit),
    runSeqFrom e s fuel = some (e2, r) →
    keysOf e2.dags = keysOf e.dags ∧ e2.sequence = e.sequence := by
  intro fuel
  induction fuel with
  | zero =>
    intro s e e2 r h
    have h2 : some ((e, Except.ok ()) : Engine V × Except DagError Unit) = some (e2, r) := h
    have h3 : ((e, Except.ok ()) : Engine V × Except DagError Unit) = (e2, r) :=
      Option.some.inj h2
    have he : e = e2 := congrArg Prod.fst h3
    rw [← he]
    exact ⟨rfl, rfl⟩
  | succ fuel ih =>
    intro s e e2 r h
    cases hg : hmGet e.sequence s with
    | none => simp [runSeqFrom, hg] at h
    | some name =>
      cases hrun : runDagM e name with
      | mk e3 res =>
        have hkeys : keysOf e3.dags = keysOf e.dags := by
          have h7 := runDagM_dags_keys e name
          rw [hrun] at h7
          exact h7
        have hseq : e3.sequence = e.sequence := by
          have h7 := runDagM_sequence e name
          rw [hrun] at h7
          exact h7
        cases res with
        | error err =>
          simp only [runSeqFrom, hg, hrun] at h
          have h3 : ((e3, Except.error err) : Engine V × Except DagError Unit) = (e2, r) :=
            Option.some.inj h
          have he : e3 = e2 := congrArg Prod.fst h3
          rw [← he]
          exact ⟨hkeys, hseq⟩
        | ok u =>
          cases u
          simp only [runSeqFrom, hg, hrun] at h
          obtain ⟨hk2, hs2⟩ := ih (s + 1) e3 e2 r h
          exact ⟨hk2.trans hkeys, hs2.trans hseq⟩

theorem runSeqFrom_ne_none {V : Type} :
    ∀ (fuel s : Nat) (e : Engine V),
    (∀ j, s ≤ j → j < s + fuel → hmContains e.sequence j = true) →
    runSeqFrom e s fuel ≠ none := by
  intro fuel
  induction fuel with
  | zero =>
    intro s e _ hnone
    simp [runSeqFrom] at hnone
  | succ fuel ih =>
    intro s e hb hnone
    have hc : hmContains e.sequence s = true := hb s (le_refl s) (by omega)
    have hg : (hmGet e.sequence s).isSome = true := hc
    cases hgv : hmGet e.sequence s with
    | none => rw [hgv] at hg; cases hg
    | some name =>
      cases hrun : runDagM e name with
      | mk e3 res =>
        cases res with
        | error err => simp [runSeqFrom, hgv, hrun] at hnone
        | ok u =>
          cases u
          simp only [runSeqFrom, hgv, hrun] at hnone
          have hseq : e3.sequence = e.sequence := by
            have h7 := runDagM_sequence e name
            rw [hrun] at h7
            exact h7
          exact ih (s + 1) e3
            (fun j hj1 hj2 => by
              rw [hseq]
              exact hb j (by omega) (by omega)) hnone

theorem runSequential_ne_none_of_inv {V : Type} (e : Engine V) (h : EngineInv e) :
    runSequential e ≠ none := by
  obtain ⟨-, -, h3, h4, -, -⟩ := h
  unfold runSequential
  apply runSeqFrom_ne_none
  intro j hj1 hj2
  exact (h4 j).2 ⟨hj1, by omega⟩

theorem engineInv_default {V : Type} : EngineInv (engineDefault : Engine V) := by
  refine ⟨by simp [engineDefault, keysOf], by simp [engineDefault, keysOf], rfl, ?_, ?_, ?_⟩
  · intro k
    constructor
    · intro hk
      simp [engineDefault, hmContains, hmGet] at hk
    · intro hk
      have : k ≤ (engineDefault : Engine V).dags.length := hk.2
      simp [engineDefault] at this
      omega
  · intro k nm hg
    simp [engineDefault, hmGet] at hg
  · intro nm hc
    simp [engineDefault, hmContains, hmGet] at hc

/-- C9: every engine state reachable from `Engine::default()` by
`append_dag`, `run_dag`, `run_sequential` and `get_dag_result` satisfies
the registry invariant — the sequence registry's keys are exactly `1..n`
for `n` the number of registered DAGs and its values are exactly the
registered names — and consequently the `unwrap`ed lookups of
`run_sequential` (embedded as `none`) and of `run_dag` never fail. -/
theorem claim_C9 {V : Type} (e : Engine V) (h : Reachable e) :
    EngineInv e ∧ runSequential e ≠ none
  ∧ (∀ nm, hmContains e.dags nm = true → (hmGet e.dags nm).isSome = true) := by
  have hinv : EngineInv e := by
    induction h with
    | default => exact engineInv_default
    | append e name dag _ ih => exact engineInv_appendDag e name dag ih
    | runOne e name _ ih =>
      exact engineInv_transfer e (runDagM e name).1
        (runDagM_dags_keys e name) (runDagM_sequence e name) ih
    | runSeq e e2 r _ hrun ih =>
      obtain ⟨hk, hs⟩ := runSeqFrom_preserves e.sequence.length 1 e e2 r hrun
      exact engineInv_transfer e e2 hk hs ih
    | getRes e name _ ih =>
      rw [getDagResultM_engine e name]
      exact ih
  exact ⟨hinv, runSequential_ne_none_of_inv e hinv, fun nm hc => hc⟩

/-- Witness for C9 at the default engine, reachable in zero steps. -/
theorem claim_C9_witness :
    EngineInv (engineDefault : Engine Nat)
  ∧ runSequential (engineDefault : Engine Nat) ≠ none
  ∧ (∀ nm, hmContains (engineDefault : Engine Nat).dags nm = true →
       (hmGet (engineDefault : Engine Nat).dags nm).isSome = true) :=
  claim_C9 engineDefault Reachable.default

end DagrsModel
